import Mathlib

/-!
Shallow embedding of the Markov-chain book-synopsis generator
(src/book_synopsis_generator.py).

Text is modelled as `List Char`; a token is a whitespace-delimited run of
non-whitespace characters with punctuation attached, exactly as produced by
Python's no-argument `str.split` (the `re.sub` whitespace normalisation in
`_tokenize_text` is absorbed by `split()` and does not change the token list).
Character classes follow the ASCII ranges used by the source's regexes;
`upc` models `str.upper` on the ASCII letters the program manipulates.
Randomness (`random.choice`) is modelled by explicit choice oracles: a
natural number `r0` for the starting word and a stream `rho : Nat -> Nat`
whose value at loop index `i` selects the index (modulo list length) chosen
at that step of the walk.
-/

/-- A token: a whitespace-delimited piece of text, punctuation attached. -/
abbrev Token := List Char

/-- Python regex `\s` on ASCII: space, tab, newline, vertical tab, form feed,
carriage return (codes 32, 9, 10, 11, 12, 13). -/
def isWsC (c : Char) : Bool :=
  decide (c.toNat = 32 ∨ c.toNat = 9 ∨ c.toNat = 10 ∨ c.toNat = 11 ∨
          c.toNat = 12 ∨ c.toNat = 13)

/-- The sentence-terminal characters `.` `!` `?` (codes 46, 33, 63),
the source's `sentence_enders` set. -/
def isTerminalC (c : Char) : Bool :=
  decide (c.toNat = 46 ∨ c.toNat = 33 ∨ c.toNat = 63)

/-- The punctuation class `[.!?,:;]` of the first post-processing regex
(codes 46, 33, 63, 44, 58, 59). -/
def isPunctC (c : Char) : Bool :=
  decide (c.toNat = 46 ∨ c.toNat = 33 ∨ c.toNat = 63 ∨ c.toNat = 44 ∨
          c.toNat = 58 ∨ c.toNat = 59)

/-- The regex class `[A-Z]` and ASCII `str.isupper` on a character. -/
def isUpperC (c : Char) : Bool :=
  decide (65 ≤ c.toNat ∧ c.toNat ≤ 90)

/-- ASCII `str.upper` on one character, as used by `_post_process_text`. -/
def upc (c : Char) : Char :=
  if 97 ≤ c.toNat ∧ c.toNat ≤ 122 then Char.ofNat (c.toNat - 32) else c

/-- Source test `word.endswith(end) for end in self.sentence_enders`:
the last character is sentence-terminal (false on the empty string). -/
def endsTerminal (t : Token) : Bool :=
  match t.getLast? with
  | some c => isTerminalC c
  | none => false

/-- Source test `word[0].isupper()`.  The source would raise on an empty token, but
tokens produced by `_tokenize_text` are never empty; we return `false`
on that unreachable case. -/
def firstIsUpper (t : Token) : Bool :=
  match t with
  | [] => false
  | c :: _ => isUpperC c

/-- Accumulator pass behind `tokenize_text`: splits the text into maximal
runs of non-whitespace characters (`acc` is the current run, reversed). -/
def splitWsAux : List Char → List Char → List (List Char)
  | [], acc => if acc.isEmpty then [] else [acc.reverse]
  | c :: rest, acc =>
    if isWsC c then
      (if acc.isEmpty then splitWsAux rest [] else acc.reverse :: splitWsAux rest [])
    else splitWsAux rest (c :: acc)

/-- Method `_tokenize_text`: collapse whitespace and split into words.  Python's
no-argument `split()` already splits on arbitrary whitespace runs and drops
empty pieces, so the result is the list of maximal non-whitespace runs. -/
def tokenize_text (text : List Char) : List Token :=
  splitWsAux text []

/-- The generator's state: `self.bigrams` (an insertion-ordered dictionary
mapping a token to the ordered list of its observed successors, with
duplicates) and `self.sentence_starters` (a duplicate-preserving pool). -/
structure BookSynopsisGenerator where
  bigrams : List (Token × List Token)
  sentence_starters : List Token
deriving DecidableEq, Repr

/-- Method `__init__`: empty bigram dictionary, empty starter pool. -/
def initGen : BookSynopsisGenerator := ⟨[], []⟩

/-- Dictionary read `self.bigrams.get(k, [])` (a plain read: `dict.get`
never inserts, even on a defaultdict). -/
def lookupList (m : List (Token × List Token)) (k : Token) : List Token :=
  match m.find? (fun p => p.1 == k) with
  | some p => p.2
  | none => []

/-- Update `self.bigrams[k].append(v)` on a defaultdict(list), whose keys are
unique: append `v` to the entry of `k` (its only occurrence), or, when the
key is absent, insert it at the end with the one-element list `[v]` —
Python dictionaries preserve insertion order. -/
def addBigram : List (Token × List Token) → Token → Token →
    List (Token × List Token)
  | [], k, v => [(k, [v])]
  | p :: rest, k, v =>
    if p.1 == k then (p.1, p.2 ++ [v]) :: rest
    else p :: addBigram rest k v

/-- The training loop of `load_training_data` from index `i = 1` on:
`prev = words[i-1]`, `cur = words[i]`, and the remaining words follow.
Each iteration appends the bigram `cur → nxt` and then, if `prev` ends in a
sentence-terminal character and `cur` is capitalized, appends `cur` to the
starter pool.  The loop stops when `cur` is the last word (the source loop
runs only while a successor exists). -/
def trainAux (st : BookSynopsisGenerator) (prev cur : Token) :
    List Token → BookSynopsisGenerator
  | [] => st
  | nxt :: rest =>
    let st1 : BookSynopsisGenerator :=
      { st with bigrams := addBigram st.bigrams cur nxt }
    let st2 : BookSynopsisGenerator :=
      if endsTerminal prev && firstIsUpper cur then
        { st1 with sentence_starters := st1.sentence_starters ++ [cur] }
      else st1
    trainAux st2 cur nxt rest

/-- Method `load_training_data`: tokenize, walk adjacent pairs building the bigram
dictionary and the starter pool (index 0 contributes only its bigram), and
finally append the first word to the pool if it is capitalized. -/
def load_training_data (st : BookSynopsisGenerator) (text : List Char) :
    BookSynopsisGenerator :=
  let words := tokenize_text text
  let st1 : BookSynopsisGenerator :=
    match words with
    | w0 :: w1 :: rest =>
      trainAux { st with bigrams := addBigram st.bigrams w0 w1 } w0 w1 rest
    | _ => st
  match words with
  | w0 :: _ =>
    if firstIsUpper w0 then
      { st1 with sentence_starters := st1.sentence_starters ++ [w0] }
    else st1
  | [] => st1

/-- Method `_choose_starting_word` with choice oracle `r`: a random sentence
starter if the pool is non-empty, else a random capitalized key of the
bigram dictionary, else a random key, else the literal `"The"`. -/
def choose_starting_word (st : BookSynopsisGenerator) (r : Nat) : Token :=
  if !st.sentence_starters.isEmpty then
    st.sentence_starters.getD (r % st.sentence_starters.length) []
  else if !st.bigrams.isEmpty then
    let ks := st.bigrams.map Prod.fst
    let caps := ks.filter firstIsUpper
    if !caps.isEmpty then caps.getD (r % caps.length) []
    else ks.getD (r % ks.length) []
  else ('T' :: 'h' :: 'e' :: [])

/-- One source loop `for i in range(max_length - 1)` of `generate_synopsis`,
with `i` the loop index and `fuel` the remaining iterations; returns the
tokens appended after the start token.  A missing successor list ends the
walk; otherwise the oracle picks the next token, which is kept, and the walk
stops if `i >= min_length - 1` (natural subtraction agrees with Python here:
for `min_length = 0` both conditions are always true) and the appended token
ends in a sentence-terminal character. -/
def walkAux (big : List (Token × List Token)) (rho : Nat → Nat) (minL : Nat) :
    Nat → Nat → Token → List Token
  | _, 0, _ => []
  | i, fuel + 1, cur =>
    let nws := lookupList big cur
    if nws.isEmpty then []
    else
      let nxt := nws.getD (rho i % nws.length) []
      if (decide (minL - 1 ≤ i)) && endsTerminal nxt then [nxt]
      else nxt :: walkAux big rho minL (i + 1) fuel nxt

/-- The raw token sequence produced by `generate_synopsis` before joining:
the chosen start token followed by the walk. -/
def synopsisTokens (st : BookSynopsisGenerator) (maxL minL r0 : Nat)
    (rho : Nat → Nat) : List Token :=
  let cur := choose_starting_word st r0
  cur :: walkAux st.bigrams rho minL 0 (maxL - 1) cur

/-- First post-processing regex `re.sub(r'\s+([.!?,:;])', r'\1', text)`:
a maximal whitespace run immediately followed by one of `.!?,:;` is deleted
(`pending` holds the reversed whitespace run currently being scanned). -/
def step2Aux : List Char → List Char → List Char
  | [], pending => pending.reverse
  | c :: rest, pending =>
    if isWsC c then step2Aux rest (c :: pending)
    else if isPunctC c then c :: step2Aux rest []
    else pending.reverse ++ (c :: step2Aux rest [])

/-- Second post-processing regex `re.sub(r'([.!?])\s*([A-Z])', r'\1 \2', text)`:
a sentence-terminal character, optional whitespace, and an uppercase letter
are rewritten with exactly one separating space; scanning resumes after the
uppercase letter.  The state holds the terminal character and the reversed
whitespace read since it, when a match is still possible. -/
def step3Aux : List Char → Option (Char × List Char) → List Char
  | [], none => []
  | [], some (t, ws) => t :: ws.reverse
  | c :: rest, none =>
    if isTerminalC c then step3Aux rest (some (c, []))
    else c :: step3Aux rest none
  | c :: rest, some (t, ws) =>
    if isWsC c then step3Aux rest (some (t, c :: ws))
    else if isUpperC c then t :: ' ' :: c :: step3Aux rest none
    else if isTerminalC c then (t :: ws.reverse) ++ step3Aux rest (some (c, []))
    else (t :: ws.reverse) ++ (c :: step3Aux rest none)

/-- Capitalization `text[0].upper() + text[1:]` (also the `len(text) == 1` case). -/
def capFirst : List Char → List Char
  | [] => []
  | c :: rest => upc c :: rest

/-- Method `_post_process_text`: append `.` when the text does not already end in a
sentence-terminal character, fix spacing around punctuation with the two
regex passes, and capitalize the first character. -/
def post_process_text (s : List Char) : List Char :=
  let t1 := if !s.isEmpty && !endsTerminal s then s ++ ['.'] else s
  let t2 := step2Aux t1 []
  let t3 := step3Aux t2 none
  capFirst t3

/-- Join `' '.join(synopsis)`. -/
def joinSp : List (List Char) → List Char
  | [] => []
  | [t] => t
  | t :: ts => t ++ ' ' :: joinSp ts

/-- The sentinel returned when the bigram dictionary is empty. -/
def fallbackText : List Char := (r"No training data available.").toList

/-- Method `generate_synopsis`: the designed fallback on an empty model, otherwise
the post-processed join of the walk's token sequence. -/
def generate_synopsis (st : BookSynopsisGenerator) (maxL minL r0 : Nat)
    (rho : Nat → Nat) : List Char :=
  if st.bigrams.isEmpty then fallbackText
  else post_process_text (joinSp (synopsisTokens st maxL minL r0 rho))

/-- Method `get_stats`: number of distinct keys, total recorded transitions, and
number of distinct starter tokens. -/
def get_stats (st : BookSynopsisGenerator) : Nat × Nat × Nat :=
  (st.bigrams.length,
   (st.bigrams.map (fun p => p.2.length)).sum,
   st.sentence_starters.dedup.length)

/-- Method `print_bigram_sample`: the displayed sample, a read-only view of the
first `n` dictionary entries with each successor list truncated to 10. -/
def print_bigram_sample (st : BookSynopsisGenerator) (n : Nat) :
    List (Token × List Token) :=
  (st.bigrams.take n).map (fun p => (p.1, p.2.take 10))

/-- Every key of the bigram dictionary maps to a non-empty successor list. -/
def InvB (st : BookSynopsisGenerator) : Bool :=
  st.bigrams.all (fun p => !p.2.isEmpty)

/-- Well-formedness used for generation: every starter token and every
dictionary key is a non-empty string (true of every trained model). -/
def wfTokens (st : BookSynopsisGenerator) : Bool :=
  st.sentence_starters.all (fun t => !t.isEmpty) &&
  (st.bigrams.map Prod.fst).all (fun t => !t.isEmpty)

/-- Absence of whitespace immediately before a `[.!?,:;]` character: the
texts left fixed by the first post-processing regex. -/
def ok2 : List Char → Bool
  | [] => true
  | [_] => true
  | a :: b :: l => !(isWsC a && isPunctC b) && ok2 (b :: l)

/-- The input characters represented by a scanning state of `step3Aux`:
nothing, or the pending terminal character and the whitespace read after
it (stored reversed). -/
def stRepr : Option (Char × List Char) → List Char
  | none => []
  | some (t, ws) => t :: ws.reverse

/-- A scanning state of `step3Aux` is valid when its pending character is
sentence-terminal and its pending run is whitespace. -/
def stOK : Option (Char × List Char) → Prop
  | none => True
  | some (t, ws) => isTerminalC t = true ∧ ∀ c ∈ ws, isWsC c = true

/- Concrete texts and tokens used in witnesses and counterexamples. -/

/-- The scenario text of the spec's testable properties. -/
def textCatDog : List Char := (r"The cat sat. The dog ran.").toList

/-- A two-token text whose last token follows a sentence end. -/
def textStopGo : List Char := (r"Stop. Go").toList

/-- First small corpus. -/
def textAB : List Char := (r"a b").toList

/-- Second small corpus. -/
def textCD : List Char := (r"c d").toList

/-- Corpus of sentence-terminal tokens used against the stopping rule. -/
def textABA : List Char := (r"A. B. A.").toList

example : tokenize_text textCatDog =
    [(r"The").toList, (r"cat").toList, (r"sat.").toList,
     (r"The").toList, (r"dog").toList, (r"ran.").toList] := by decide

example : (load_training_data initGen textCatDog).sentence_starters =
    [(r"The").toList, (r"The").toList] := by decide

example : lookupList (load_training_data initGen textCatDog).bigrams
    ((r"The").toList) = [(r"cat").toList, (r"dog").toList] := by decide

example : synopsisTokens (load_training_data initGen textABA) 4 2 0
    (fun _ => 0) = [(r"B.").toList, (r"A.").toList, (r"B.").toList] := by decide

example : post_process_text ((r"the cat sat .").toList) =
    (r"The cat sat.").toList := by decide

example : generate_synopsis initGen 10 2 0 (fun _ => 0) = fallbackText := by
  decide

/-! ### Basic lemmas about the walk -/

theorem walkAux_zero (big : List (Token × List Token)) (rho : Nat → Nat)
    (minL i : Nat) (cur : Token) : walkAux big rho minL i 0 cur = [] := rfl

theorem walkAux_succ (big : List (Token × List Token)) (rho : Nat → Nat)
    (minL i fuel : Nat) (cur : Token) :
    walkAux big rho minL i (fuel + 1) cur =
      if (lookupList big cur).isEmpty then []
      else if (decide (minL - 1 ≤ i)) &&
          endsTerminal ((lookupList big cur).getD
            (rho i % (lookupList big cur).length) []) then
        [(lookupList big cur).getD (rho i % (lookupList big cur).length) []]
      else ((lookupList big cur).getD (rho i % (lookupList big cur).length) []) ::
        walkAux big rho minL (i + 1) fuel
          ((lookupList big cur).getD (rho i % (lookupList big cur).length) []) :=
  rfl

theorem walkAux_length_le (big : List (Token × List Token)) (rho : Nat → Nat)
    (minL : Nat) : ∀ fuel i cur, (walkAux big rho minL i fuel cur).length ≤ fuel := by
  intro fuel
  induction fuel with
  | zero => intro i cur; simp [walkAux_zero]
  | succ n ih =>
    intro i cur
    rw [walkAux_succ]
    split
    · simp
    · split
      · simp
      · simpa using Nat.succ_le_succ (ih (i + 1) _)

/-- C4: the produced token sequence, start token included, never exceeds
`maxLength` tokens (for `maxLength ≥ 1`). -/
theorem claim4_bounded_length (st : BookSynopsisGenerator)
    (maxL minL r0 : Nat) (rho : Nat → Nat) (h : 1 ≤ maxL) :
    (synopsisTokens st maxL minL r0 rho).length ≤ maxL := by
  unfold synopsisTokens
  have hw := walkAux_length_le st.bigrams rho minL (maxL - 1) 0
    (choose_starting_word st r0)
  simp only [List.length_cons]
  omega

theorem claim4_witness :
    1 ≤ 4 ∧
      (synopsisTokens (load_training_data initGen textABA) 4 2 0
        (fun _ => 0)).length ≤ 4 :=
  ⟨by decide, claim4_bounded_length _ 4 2 0 _ (by decide)⟩

/-- C5: with an empty transition table — in particular after training on the
empty string — `generate_synopsis` returns the designated fallback string;
the embedding is a total function, so no exception path exists. -/
theorem claim5_empty_fallback (st : BookSynopsisGenerator)
    (maxL minL r0 : Nat) (rho : Nat → Nat) (h : st.bigrams = []) :
    generate_synopsis st maxL minL r0 rho = fallbackText := by
  simp [generate_synopsis, h]

theorem claim5_witness :
    (load_training_data initGen []).bigrams = [] ∧
      generate_synopsis (load_training_data initGen []) 100 20 0
        (fun _ => 0) = fallbackText :=
  ⟨by decide, claim5_empty_fallback _ 100 20 0 _ (by decide)⟩

/-! ### The non-empty-successor-list invariant (C6) -/

theorem addBigram_all_nonempty (k v : Token) :
    ∀ m : List (Token × List Token), m.all (fun p => !p.2.isEmpty) = true →
      (addBigram m k v).all (fun p => !p.2.isEmpty) = true := by
  intro m
  induction m with
  | nil => intro h; simp [addBigram]
  | cons p rest ih =>
    intro h
    simp only [List.all_cons, Bool.and_eq_true] at h
    unfold addBigram
    split
    · simp only [List.all_cons, Bool.and_eq_true]
      exact ⟨by simp, h.2⟩
    · simp only [List.all_cons, Bool.and_eq_true]
      exact ⟨h.1, ih h.2⟩

theorem trainAux_invB :
    ∀ (rest : List Token) (prev cur : Token) (st : BookSynopsisGenerator),
      InvB st = true → InvB (trainAux st prev cur rest) = true := by
  intro rest
  induction rest with
  | nil => intro prev cur st h; exact h
  | cons nxt r ih =>
    intro prev cur st h
    unfold trainAux
    apply ih
    split
    · exact addBigram_all_nonempty cur nxt st.bigrams h
    · exact addBigram_all_nonempty cur nxt st.bigrams h

/-- C6: every operation preserves the invariant that each key of the bigram
dictionary maps to a non-empty successor list.  `load_training_data` is the
only operation that changes the model: `generate_synopsis`, `get_stats` and
`print_bigram_sample` are embedded as pure functions of the state (matching
the source, which only reads `self.bigrams` via `.get`, `.keys`, `.items`,
never through a mutating defaultdict access), so preservation by
`load_training_data` settles the claim for all four operations. -/
theorem claim6_invariant (st : BookSynopsisGenerator) (text : List Char)
    (h : InvB st = true) : InvB (load_training_data st text) = true := by
  unfold load_training_data
  rcases hw : tokenize_text text with _ | ⟨w0, _ | ⟨w1, rest⟩⟩
  · exact h
  · dsimp only
    split
    · exact h
    · exact h
  · dsimp only
    have h1 : InvB (trainAux { st with bigrams := addBigram st.bigrams w0 w1 }
        w0 w1 rest) = true := by
      apply trainAux_invB
      exact addBigram_all_nonempty w0 w1 st.bigrams h
    split
    · exact h1
    · exact h1

theorem claim6_witness : InvB (load_training_data initGen textCatDog) = true :=
  claim6_invariant initGen textCatDog (by decide)

/-! ### Retraining accumulates instead of replacing (C1) -/

theorem lookupList_nil (q : Token) : lookupList [] q = [] := rfl

theorem lookupList_cons (p : Token × List Token)
    (m : List (Token × List Token)) (q : Token) :
    lookupList (p :: m) q = if p.1 == q then p.2 else lookupList m q := by
  unfold lookupList
  cases h : (p.1 == q) <;> simp [List.find?, h]

theorem lookupList_addBigram (k v q : Token) :
    ∀ m : List (Token × List Token),
      lookupList (addBigram m k v) q =
        lookupList m q ++ (if k == q then [v] else []) := by
  intro m
  induction m with
  | nil =>
    by_cases h : k = q <;> simp [addBigram, lookupList_cons, lookupList, h]
  | cons p rest ih =>
    unfold addBigram
    by_cases hp : p.1 = k
    · rw [if_pos (by simp [hp])]
      rw [lookupList_cons, lookupList_cons]
      by_cases hq : p.1 = q
      · have hkq : k = q := hp ▸ hq
        simp [hq, hkq]
      · have hkq : ¬ k = q := fun e => hq (e ▸ hp)
        simp [hq, hkq]
    · rw [if_neg (by simp [hp])]
      rw [lookupList_cons, lookupList_cons]
      by_cases hq : p.1 = q
      · have hkq : ¬ k = q := fun e => hp (e ▸ hq.symm ▸ rfl)
        simp [hq, hkq]
      · simp [hq, ih]

theorem trainAux_cons (st : BookSynopsisGenerator) (prev cur nxt : Token)
    (rest : List Token) :
    trainAux st prev cur (nxt :: rest) =
      trainAux
        (if endsTerminal prev && firstIsUpper cur then
          { bigrams := addBigram st.bigrams cur nxt,
            sentence_starters := st.sentence_starters ++ [cur] }
         else { st with bigrams := addBigram st.bigrams cur nxt })
        cur nxt rest := rfl

theorem trainAux_step_bigrams (st : BookSynopsisGenerator)
    (prev cur nxt : Token) :
    (if endsTerminal prev && firstIsUpper cur then
      { bigrams := addBigram st.bigrams cur nxt,
        sentence_starters := st.sentence_starters ++ [cur] }
     else { st with bigrams := addBigram st.bigrams cur nxt } :
      BookSynopsisGenerator).bigrams = addBigram st.bigrams cur nxt := by
  split <;> rfl

theorem trainAux_step_starters (st : BookSynopsisGenerator)
    (prev cur nxt : Token) :
    (if endsTerminal prev && firstIsUpper cur then
      { bigrams := addBigram st.bigrams cur nxt,
        sentence_starters := st.sentence_starters ++ [cur] }
     else { st with bigrams := addBigram st.bigrams cur nxt } :
      BookSynopsisGenerator).sentence_starters =
      st.sentence_starters ++
        (if endsTerminal prev && firstIsUpper cur then [cur] else []) := by
  split <;> simp

theorem trainAux_bigrams_lookup (q : Token) :
    ∀ (rest : List Token) (prev cur : Token) (st : BookSynopsisGenerator),
      lookupList (trainAux st prev cur rest).bigrams q =
        lookupList st.bigrams q ++
          lookupList (trainAux initGen prev cur rest).bigrams q := by
  intro rest
  induction rest with
  | nil => intro prev cur st; simp [trainAux, initGen, lookupList]
  | cons nxt r ih =>
    intro prev cur st
    rw [trainAux_cons st prev cur nxt r, trainAux_cons initGen prev cur nxt r]
    conv_rhs => rw [ih cur nxt]
    conv_lhs => rw [ih cur nxt]
    rw [trainAux_step_bigrams st prev cur nxt,
      trainAux_step_bigrams initGen prev cur nxt]
    rw [lookupList_addBigram, lookupList_addBigram]
    simp only [initGen, lookupList_nil, List.nil_append, List.append_assoc]

theorem trainAux_starters :
    ∀ (rest : List Token) (prev cur : Token) (st : BookSynopsisGenerator),
      (trainAux st prev cur rest).sentence_starters =
        st.sentence_starters ++
          (trainAux initGen prev cur rest).sentence_starters := by
  intro rest
  induction rest with
  | nil => intro prev cur st; simp [trainAux, initGen]
  | cons nxt r ih =>
    intro prev cur st
    rw [trainAux_cons st prev cur nxt r, trainAux_cons initGen prev cur nxt r]
    conv_rhs => rw [ih cur nxt]
    conv_lhs => rw [ih cur nxt]
    rw [trainAux_step_starters st prev cur nxt,
      trainAux_step_starters initGen prev cur nxt]
    simp [initGen, List.append_assoc]

/-- C1 counterexample: on a generator already trained on `"a b"`, training
on `"c d"` does not reproduce the model of a fresh generator trained on
`"c d"` — the stale entry `"a" → ["b"]` from the first corpus survives, so
retraining does not fully replace the model. -/
theorem claim1_counterexample :
    load_training_data (load_training_data initGen textAB) textCD ≠
        load_training_data initGen textCD ∧
      lookupList (load_training_data (load_training_data initGen textAB)
          textCD).bigrams ((r"a").toList) = [(r"b").toList] := by
  decide

/-- C1 amended: `load_training_data` accumulates rather than replaces.
After retraining, each key's successor list is its previous list followed by
the successors contributed by the new text alone, and the starter pool is
the previous pool followed by the new text's starters.  (The original claim,
full replacement with no stale entries, fails: see the counterexample.) -/
theorem claim1_amended (st : BookSynopsisGenerator) (text : List Char)
    (q : Token) :
    lookupList (load_training_data st text).bigrams q =
        lookupList st.bigrams q ++
          lookupList (load_training_data initGen text).bigrams q ∧
      (load_training_data st text).sentence_starters =
        st.sentence_starters ++
          (load_training_data initGen text).sentence_starters := by
  unfold load_training_data
  rcases hw : tokenize_text text with _ | ⟨w0, _ | ⟨w1, rest⟩⟩
  · exact ⟨by simp [initGen, lookupList], by simp [initGen]⟩
  · dsimp only
    by_cases hup : firstIsUpper w0 = true
    · rw [if_pos hup, if_pos hup]
      exact ⟨by simp [initGen, lookupList], by simp [initGen]⟩
    · rw [if_neg hup, if_neg hup]
      exact ⟨by simp [initGen, lookupList], by simp [initGen]⟩
  · dsimp only
    constructor
    · have hL := trainAux_bigrams_lookup q rest w0 w1
        { st with bigrams := addBigram st.bigrams w0 w1 }
      have hR := trainAux_bigrams_lookup q rest w0 w1
        { initGen with bigrams := addBigram initGen.bigrams w0 w1 }
      have hmain :
          lookupList (trainAux { st with bigrams := addBigram st.bigrams w0 w1 }
              w0 w1 rest).bigrams q =
            lookupList st.bigrams q ++
              lookupList (trainAux { initGen with
                bigrams := addBigram initGen.bigrams w0 w1 } w0 w1 rest).bigrams q := by
        rw [hL, hR]
        show lookupList (addBigram st.bigrams w0 w1) q ++ _ =
          lookupList st.bigrams q ++ (lookupList (addBigram initGen.bigrams w0 w1) q ++ _)
        rw [lookupList_addBigram, lookupList_addBigram]
        simp only [initGen, lookupList_nil, List.nil_append, List.append_assoc]
      by_cases hup : firstIsUpper w0 = true
      · rw [if_pos hup, if_pos hup]; exact hmain
      · rw [if_neg hup, if_neg hup]; exact hmain
    · have hL := trainAux_starters rest w0 w1
        { st with bigrams := addBigram st.bigrams w0 w1 }
      have hR := trainAux_starters rest w0 w1
        { initGen with bigrams := addBigram initGen.bigrams w0 w1 }
      have hmain :
          (trainAux { st with bigrams := addBigram st.bigrams w0 w1 }
              w0 w1 rest).sentence_starters =
            st.sentence_starters ++
              (trainAux { initGen with
                bigrams := addBigram initGen.bigrams w0 w1 }
                w0 w1 rest).sentence_starters := by
        rw [hL, hR]
        simp [initGen]
      by_cases hup : firstIsUpper w0 = true
      · rw [if_pos hup, if_pos hup]
        simp only [hmain, List.append_assoc]
      · rw [if_neg hup, if_neg hup]
        exact hmain

/-! ### Starter detection (C3) -/

theorem trainAux_starters_mono (s : Token) :
    ∀ (rest : List Token) (prev cur : Token) (st : BookSynopsisGenerator),
      s ∈ st.sentence_starters →
      s ∈ (trainAux st prev cur rest).sentence_starters := by
  intro rest
  induction rest with
  | nil => intro prev cur st h; exact h
  | cons nxt r ih =>
    intro prev cur st h
    rw [trainAux_cons st prev cur nxt r]
    apply ih
    rw [trainAux_step_starters st prev cur nxt]
    exact List.mem_append_left _ h

theorem trainAux_starter_mem :
    ∀ (rest : List Token) (prev cur : Token) (st : BookSynopsisGenerator)
      (i : Nat),
      i + 1 < (cur :: rest).length →
      endsTerminal ((prev :: cur :: rest).getD i []) = true →
      firstIsUpper ((cur :: rest).getD i []) = true →
      ((cur :: rest).getD i []) ∈ (trainAux st prev cur rest).sentence_starters := by
  intro rest
  induction rest with
  | nil =>
    intro prev cur st i h1 _ _
    simp at h1
  | cons nxt r ih =>
    intro prev cur st i h1 h2 h3
    cases i with
    | zero =>
      simp only [List.getD_cons_zero] at h2 h3 ⊢
      rw [trainAux_cons st prev cur nxt r]
      apply trainAux_starters_mono
      rw [trainAux_step_starters st prev cur nxt]
      apply List.mem_append_right
      rw [h2, h3]
      simp
    | succ j =>
      simp only [List.getD_cons_succ] at h2 h3 ⊢
      rw [trainAux_cons st prev cur nxt r]
      apply ih cur nxt _ j
      · simp only [List.length_cons] at h1 ⊢
        omega
      · exact h2
      · exact h3

/-- C3 counterexample: in `"Stop. Go"` the token `"Go"` occupies the last
position, follows the sentence-terminal token `"Stop."`, and is capitalized,
yet it is never added to the starter pool — the source's loop stops one
position short of the last token, so the claim's "including the last
position" fails. -/
theorem claim3_counterexample :
    (tokenize_text textStopGo).length = 2 ∧
      endsTerminal ((tokenize_text textStopGo).getD 0 []) = true ∧
      firstIsUpper ((tokenize_text textStopGo).getD 1 []) = true ∧
      ¬ ((tokenize_text textStopGo).getD 1 [] ∈
        (load_training_data initGen textStopGo).sentence_starters) := by
  decide

/-- C3 amended: for every position `i` with `0 < i` that is NOT the last
position of the token sequence (`i + 1 < length`), if the previous token
ends in a sentence-terminal character and the token at `i` starts with an
uppercase letter, that token is added to the starter pool.  (The original
claim also covered the last position; the counterexample shows the source's
loop never starter-checks the last token.) -/
theorem claim3_amended (st : BookSynopsisGenerator) (text : List Char)
    (i : Nat) (h0 : 0 < i) (h1 : i + 1 < (tokenize_text text).length)
    (h2 : endsTerminal ((tokenize_text text).getD (i - 1) []) = true)
    (h3 : firstIsUpper ((tokenize_text text).getD i []) = true) :
    (tokenize_text text).getD i [] ∈
      (load_training_data st text).sentence_starters := by
  unfold load_training_data
  rcases hw : tokenize_text text with _ | ⟨w0, _ | ⟨w1, rest⟩⟩
  · rw [hw] at h1; simp at h1
  · rw [hw] at h1; simp at h1
  · rw [hw] at h1 h2 h3
    obtain ⟨j, rfl⟩ : ∃ t, i = t + 1 := ⟨i - 1, by omega⟩
    simp only [Nat.add_sub_cancel] at h2
    simp only [List.getD_cons_succ] at h3 ⊢
    have hmem : (w1 :: rest).getD j [] ∈
        (trainAux { st with bigrams := addBigram st.bigrams w0 w1 }
          w0 w1 rest).sentence_starters := by
      apply trainAux_starter_mem rest w0 w1 _ j
      · simp only [List.length_cons] at h1 ⊢
        omega
      · exact h2
      · exact h3
    split
    · exact List.mem_append_left _ hmem
    · exact hmem

theorem claim3_witness :
    0 < 3 ∧ 3 + 1 < (tokenize_text textCatDog).length ∧
      endsTerminal ((tokenize_text textCatDog).getD 2 []) = true ∧
      firstIsUpper ((tokenize_text textCatDog).getD 3 []) = true ∧
      (tokenize_text textCatDog).getD 3 [] ∈
        (load_training_data initGen textCatDog).sentence_starters :=
  ⟨by decide, by decide, by decide, by decide,
    claim3_amended initGen textCatDog 3 (by decide) (by decide) (by decide)
      (by decide)⟩

/-! ### The stopping rule of the walk (C2, C7) -/

/-- C2 counterexample: training on `"A. B. A."` and walking with
`maxLength = 4`, `minLength = 2` and the all-zeros oracle produces the
three-token sequence `["B.", "A.", "B."]`.  After its second token the
output already had length `2 ≥ minLength` and that token, `"A."`, ends in a
sentence-terminal character, yet the walk appended a further token: the
source stops only from length `minLength + 1` on (`i >= min_length - 1`
with the appended token at sequence position `i + 1`), not at `minLength`. -/
theorem claim2_counterexample :
    synopsisTokens (load_training_data initGen textABA) 4 2 0 (fun _ => 0) =
        [(r"B.").toList, (r"A.").toList, (r"B.").toList] ∧
      endsTerminal ((r"A.").toList) = true := by
  decide

theorem walkAux_no_midstop (big : List (Token × List Token))
    (rho : Nat → Nat) (minL : Nat) :
    ∀ (fuel i : Nat) (cur : Token) (j : Nat),
      j + 1 < (walkAux big rho minL i fuel cur).length →
      minL ≤ i + 1 + j →
      endsTerminal ((walkAux big rho minL i fuel cur).getD j []) = false := by
  intro fuel
  induction fuel with
  | zero => intro i cur j h _; simp [walkAux_zero] at h
  | succ n ih =>
    intro i cur j h hm
    rw [walkAux_succ] at h ⊢
    by_cases he : (lookupList big cur).isEmpty = true
    · rw [if_pos he] at h; simp at h
    · rw [if_neg he] at h ⊢
      by_cases hs : ((decide (minL - 1 ≤ i)) &&
          endsTerminal ((lookupList big cur).getD
            (rho i % (lookupList big cur).length) [])) = true
      · rw [if_pos hs] at h; simp at h
      · rw [if_neg hs] at h ⊢
        cases j with
        | zero =>
          simp only [List.getD_cons_zero]
          have hd : (decide (minL - 1 ≤ i)) = true := by
            simp; omega
          rw [hd, Bool.true_and] at hs
          simpa using hs
        | succ j' =>
          simp only [List.getD_cons_succ]
          apply ih (i + 1) _ j'
          · simp only [List.length_cons] at h
            omega
          · omega

/-- C2 amended: the walk stops at the first appended token that ends in a
sentence-terminal character once the sequence length (start token included)
has reached `minLength + 1` — one more than the claim stated.  Stated
contrapositively: an appended token at index `j ≥ 1` with `minLength ≤ j`
(so the sequence through it has length `j + 1 ≥ minLength + 1`) that is not
the last token of the walk never ends in a sentence-terminal character. -/
theorem claim2_amended (st : BookSynopsisGenerator) (maxL minL r0 : Nat)
    (rho : Nat → Nat) (j : Nat) (h0 : 0 < j) (hm : minL ≤ j)
    (hj : j + 1 < (synopsisTokens st maxL minL r0 rho).length) :
    endsTerminal ((synopsisTokens st maxL minL r0 rho).getD j []) = false := by
  unfold synopsisTokens at hj ⊢
  obtain ⟨j', rfl⟩ : ∃ t, j = t + 1 := ⟨j - 1, by omega⟩
  simp only [List.getD_cons_succ]
  apply walkAux_no_midstop st.bigrams rho minL (maxL - 1) 0 _ j'
  · simp only [List.length_cons] at hj
    omega
  · omega

theorem claim2_witness :
    0 < 1 ∧ 1 ≤ 1 ∧
      1 + 1 < (synopsisTokens (load_training_data initGen textCatDog) 10 1 0
        (fun _ => 0)).length ∧
      endsTerminal ((synopsisTokens (load_training_data initGen textCatDog)
        10 1 0 (fun _ => 0)).getD 1 []) = false :=
  ⟨by decide, by decide, by decide,
    claim2_amended (load_training_data initGen textCatDog) 10 1 0
      (fun _ => 0) 1 (by decide) (by decide) (by decide)⟩

theorem walkAux_early_stop (big : List (Token × List Token))
    (rho : Nat → Nat) (minL : Nat) :
    ∀ (fuel i : Nat) (cur : Token),
      (walkAux big rho minL i fuel cur).length < fuel →
      lookupList big ((cur :: walkAux big rho minL i fuel cur).getLastD []) = [] ∨
        (walkAux big rho minL i fuel cur ≠ [] ∧
         endsTerminal ((walkAux big rho minL i fuel cur).getLastD []) = true ∧
         minL ≤ i + (walkAux big rho minL i fuel cur).length) := by
  intro fuel
  induction fuel with
  | zero => intro i cur h; simp [walkAux_zero] at h
  | succ n ih =>
    intro i cur h
    by_cases he : (lookupList big cur).isEmpty = true
    · left
      rw [walkAux_succ, if_pos he]
      simp only [List.getLastD_cons, List.getLastD_nil]
      exact List.isEmpty_iff.mp he
    · by_cases hs : ((decide (minL - 1 ≤ i)) &&
          endsTerminal ((lookupList big cur).getD
            (rho i % (lookupList big cur).length) [])) = true
      · right
        rw [walkAux_succ, if_neg he, if_pos hs]
        rw [Bool.and_eq_true] at hs
        refine ⟨by simp, ?_, ?_⟩
        · simpa using hs.2
        · have : minL - 1 ≤ i := by simpa using hs.1
          simp only [List.length_cons, List.length_nil]
          omega
      · rw [walkAux_succ, if_neg he, if_neg hs] at h ⊢
        have h' : (walkAux big rho minL (i + 1) n
            ((lookupList big cur).getD
              (rho i % (lookupList big cur).length) [])).length < n := by
          simp only [List.length_cons] at h
          omega
        rcases ih (i + 1) _ h' with hl | ⟨hne, ht, hmn⟩
        · left
          rw [List.getLastD_cons, List.getLastD_cons]
          rw [List.getLastD_cons] at hl
          exact hl
        · right
          refine ⟨by simp, ?_, ?_⟩
          · rw [List.getLastD_cons]
            rcases hx : walkAux big rho minL (i + 1) n
                ((lookupList big cur).getD
                  (rho i % (lookupList big cur).length) []) with _ | ⟨a, t⟩
            · exact absurd hx hne
            · rw [hx] at ht
              rw [List.getLastD_cons] at ht ⊢
              exact ht
          · simp only [List.length_cons]
            omega

/-- C7: no sentence-terminal-triggered stop happens while the sequence has
fewer than `minLength` tokens: a walk that ends with fewer than `minLength`
tokens without exhausting `maxLength` can only have stopped at a dead end,
a current token with no recorded successor list. -/
theorem claim7_no_early_terminal_stop (st : BookSynopsisGenerator)
    (maxL minL r0 : Nat) (rho : Nat → Nat)
    (h1 : (synopsisTokens st maxL minL r0 rho).length < minL)
    (h2 : (synopsisTokens st maxL minL r0 rho).length < maxL) :
    lookupList st.bigrams
      ((synopsisTokens st maxL minL r0 rho).getLastD []) = [] := by
  unfold synopsisTokens at h1 h2 ⊢
  have hlt : (walkAux st.bigrams rho minL 0 (maxL - 1)
      (choose_starting_word st r0)).length < maxL - 1 := by
    simp only [List.length_cons] at h2
    omega
  rcases walkAux_early_stop st.bigrams rho minL (maxL - 1) 0
      (choose_starting_word st r0) hlt with hl | ⟨_, _, hmn⟩
  · exact hl
  · exfalso
    simp only [List.length_cons] at h1
    omega

theorem claim7_witness :
    (synopsisTokens (load_training_data initGen textCatDog) 10 10 0
        (fun _ => 1)).length < 10 ∧
      (synopsisTokens (load_training_data initGen textCatDog) 10 10 0
        (fun _ => 1)).length < 10 ∧
      lookupList (load_training_data initGen textCatDog).bigrams
        ((synopsisTokens (load_training_data initGen textCatDog) 10 10 0
          (fun _ => 1)).getLastD []) = [] :=
  ⟨by decide, by decide,
    claim7_no_early_terminal_stop (load_training_data initGen textCatDog)
      10 10 0 (fun _ => 1) (by decide) (by decide)⟩

/-! ### Character-class facts -/

theorem terminal_punct {c : Char} (h : isTerminalC c = true) :
    isPunctC c = true := by
  simp [isTerminalC] at h
  simp [isPunctC]
  omega

theorem terminal_not_ws {c : Char} (h : isTerminalC c = true) :
    isWsC c = false := by
  simp [isTerminalC] at h
  simp [isWsC]
  omega

theorem terminal_not_upper {c : Char} (h : isTerminalC c = true) :
    isUpperC c = false := by
  simp [isTerminalC] at h
  simp [isUpperC]
  omega

theorem punct_not_ws {c : Char} (h : isPunctC c = true) :
    isWsC c = false := by
  simp [isPunctC] at h
  simp [isWsC]
  omega

theorem upper_not_ws {c : Char} (h : isUpperC c = true) :
    isWsC c = false := by
  simp [isUpperC] at h
  simp [isWsC]
  omega

theorem upper_not_punct {c : Char} (h : isUpperC c = true) :
    isPunctC c = false := by
  simp [isUpperC] at h
  simp [isPunctC]
  omega

theorem ws_not_punct {c : Char} (h : isWsC c = true) :
    isPunctC c = false := by
  simp [isWsC] at h
  simp [isPunctC]
  omega

theorem toNat_upc (c : Char) :
    (upc c).toNat =
      if 97 ≤ c.toNat ∧ c.toNat ≤ 122 then c.toNat - 32 else c.toNat := by
  unfold upc
  split
  · rename_i h
    have hv : (c.toNat - 32).isValidChar := by
      left
      omega
    unfold Char.ofNat
    rw [dif_pos hv]
    rfl
  · rfl

theorem upc_eq_self_of_not_lower (c : Char)
    (h : ¬ (97 ≤ c.toNat ∧ c.toNat ≤ 122)) : upc c = c := by
  unfold upc
  rw [if_neg h]

theorem upc_ws (c : Char) : isWsC (upc c) = isWsC c := by
  have h := toNat_upc c
  by_cases hl : 97 ≤ c.toNat ∧ c.toNat ≤ 122
  · rw [if_pos hl] at h
    simp only [isWsC, decide_eq_decide]
    omega
  · rw [upc_eq_self_of_not_lower c hl]

theorem upc_terminal (c : Char) : isTerminalC (upc c) = isTerminalC c := by
  have h := toNat_upc c
  by_cases hl : 97 ≤ c.toNat ∧ c.toNat ≤ 122
  · rw [if_pos hl] at h
    simp only [isTerminalC, decide_eq_decide]
    omega
  · rw [upc_eq_self_of_not_lower c hl]

theorem upc_punct (c : Char) : isPunctC (upc c) = isPunctC c := by
  have h := toNat_upc c
  by_cases hl : 97 ≤ c.toNat ∧ c.toNat ≤ 122
  · rw [if_pos hl] at h
    simp only [isPunctC, decide_eq_decide]
    omega
  · rw [upc_eq_self_of_not_lower c hl]

theorem upc_upc (c : Char) : upc (upc c) = upc c := by
  by_cases hl : 97 ≤ c.toNat ∧ c.toNat ≤ 122
  · have h := toNat_upc c
    rw [if_pos hl] at h
    apply upc_eq_self_of_not_lower
    omega
  · rw [upc_eq_self_of_not_lower c hl, upc_eq_self_of_not_lower c hl]

/-! ### Equation lemmas for the post-processing passes -/

theorem step2Aux_nil (pending : List Char) :
    step2Aux [] pending = pending.reverse := rfl

theorem step2Aux_cons (c : Char) (rest pending : List Char) :
    step2Aux (c :: rest) pending =
      if isWsC c then step2Aux rest (c :: pending)
      else if isPunctC c then c :: step2Aux rest []
      else pending.reverse ++ (c :: step2Aux rest []) := rfl

theorem step3Aux_nil_none : step3Aux [] none = [] := rfl

theorem step3Aux_nil_some (t : Char) (ws : List Char) :
    step3Aux [] (some (t, ws)) = t :: ws.reverse := rfl

theorem step3Aux_cons_none (c : Char) (rest : List Char) :
    step3Aux (c :: rest) none =
      if isTerminalC c then step3Aux rest (some (c, []))
      else c :: step3Aux rest none := rfl

theorem step3Aux_cons_some (c : Char) (rest : List Char) (t : Char)
    (ws : List Char) :
    step3Aux (c :: rest) (some (t, ws)) =
      if isWsC c then step3Aux rest (some (t, c :: ws))
      else if isUpperC c then t :: ' ' :: c :: step3Aux rest none
      else if isTerminalC c then
        (t :: ws.reverse) ++ step3Aux rest (some (c, []))
      else (t :: ws.reverse) ++ (c :: step3Aux rest none) := rfl

/-! ### The output of post-processing is non-empty and sentence-final -/

theorem endsTerminal_cons (a : Char) (l : List Char) (h : l ≠ []) :
    endsTerminal (a :: l) = endsTerminal l := by
  rcases l with _ | ⟨b, t⟩
  · exact absurd rfl h
  · unfold endsTerminal
    rw [List.getLast?_cons_cons]

theorem endsTerminal_append_right (x y : List Char) (h : y ≠ []) :
    endsTerminal (x ++ y) = endsTerminal y := by
  induction x with
  | nil => rfl
  | cons a x ih =>
    rw [List.cons_append, endsTerminal_cons, ih]
    rcases x with _ | _
    · simpa using h
    · simp

theorem endsTerminal_concat (l : List Char) (c : Char) :
    endsTerminal (l ++ [c]) = isTerminalC c := by
  rw [endsTerminal_append_right l [c] (by simp)]
  rfl

theorem step2Aux_endsTerminal :
    ∀ (l pending : List Char), l ≠ [] → endsTerminal l = true →
      step2Aux l pending ≠ [] ∧ endsTerminal (step2Aux l pending) = true := by
  intro l
  induction l with
  | nil => intro pending h _; exact absurd rfl h
  | cons c rest ih =>
    intro pending _ hET
    rcases rest with _ | ⟨d, t⟩
    · have hc : isTerminalC c = true := hET
      rw [step2Aux_cons, if_neg (by simp [terminal_not_ws hc]),
        if_pos (terminal_punct hc)]
      exact ⟨by simp, hc⟩
    · have hET' : endsTerminal (d :: t) = true := by
        rw [endsTerminal_cons c (d :: t) (by simp)] at hET
        exact hET
      obtain ⟨hne, ht⟩ := ih [] (by simp) hET'
      rw [step2Aux_cons]
      by_cases hw : isWsC c = true
      · rw [if_pos hw]
        exact ih (c :: pending) (by simp) hET'
      · rw [if_neg hw]
        by_cases hp : isPunctC c = true
        · rw [if_pos hp]
          exact ⟨by simp, by rw [endsTerminal_cons c _ hne]; exact ht⟩
        · rw [if_neg hp]
          constructor
          · simp
          · rw [endsTerminal_append_right _ _ (by simp),
              endsTerminal_cons c _ hne]
            exact ht

theorem step3Aux_endsTerminal :
    ∀ (l : List Char) (st : Option (Char × List Char)), l ≠ [] →
      endsTerminal l = true →
      step3Aux l st ≠ [] ∧ endsTerminal (step3Aux l st) = true := by
  intro l
  induction l with
  | nil => intro st h _; exact absurd rfl h
  | cons c rest ih =>
    intro st _ hET
    rcases rest with _ | ⟨d, t⟩
    · have hc : isTerminalC c = true := hET
      rcases st with _ | ⟨tc, ws⟩
      · rw [step3Aux_cons_none, if_pos hc, step3Aux_nil_some]
        exact ⟨by simp, hc⟩
      · rw [step3Aux_cons_some, if_neg (by simp [terminal_not_ws hc]),
          if_neg (by simp [terminal_not_upper hc]), if_pos hc,
          step3Aux_nil_some]
        constructor
        · simp
        · simp only [List.reverse_nil]
          rw [endsTerminal_concat]
          exact hc
    · have hET' : endsTerminal (d :: t) = true := by
        rw [endsTerminal_cons c (d :: t) (by simp)] at hET
        exact hET
      rcases st with _ | ⟨tc, ws⟩
      · rw [step3Aux_cons_none]
        by_cases hc : isTerminalC c = true
        · rw [if_pos hc]
          exact ih (some (c, [])) (by simp) hET'
        · rw [if_neg hc]
          obtain ⟨hne, ht⟩ := ih none (by simp) hET'
          exact ⟨by simp, by rw [endsTerminal_cons c _ hne]; exact ht⟩
      · rw [step3Aux_cons_some]
        by_cases hw : isWsC c = true
        · rw [if_pos hw]
          exact ih (some (tc, c :: ws)) (by simp) hET'
        · rw [if_neg hw]
          by_cases hu : isUpperC c = true
          · rw [if_pos hu]
            obtain ⟨hne, ht⟩ := ih none (by simp) hET'
            refine ⟨by simp, ?_⟩
            rw [endsTerminal_cons tc _ (by simp),
              endsTerminal_cons ' ' _ (by simp),
              endsTerminal_cons c _ hne]
            exact ht
          · rw [if_neg hu]
            by_cases hc : isTerminalC c = true
            · rw [if_pos hc]
              obtain ⟨hne, ht⟩ := ih (some (c, [])) (by simp) hET'
              refine ⟨by simp [hne], ?_⟩
              rw [endsTerminal_append_right _ _ hne]
              exact ht
            · rw [if_neg hc]
              obtain ⟨hne, ht⟩ := ih none (by simp) hET'
              refine ⟨by simp, ?_⟩
              rw [endsTerminal_append_right _ _ (by simp),
                endsTerminal_cons c _ hne]
              exact ht

theorem capFirst_endsTerminal (l : List Char) (h1 : l ≠ [])
    (h2 : endsTerminal l = true) :
    capFirst l ≠ [] ∧ endsTerminal (capFirst l) = true := by
  rcases l with _ | ⟨c, rest⟩
  · exact absurd rfl h1
  · rcases rest with _ | ⟨d, t⟩
    · refine ⟨by simp [capFirst], ?_⟩
      have : endsTerminal [upc c] = isTerminalC (upc c) := rfl
      rw [capFirst, this, upc_terminal]
      exact h2
    · refine ⟨by simp [capFirst], ?_⟩
      rw [capFirst, endsTerminal_cons _ _ (by simp)]
      rw [endsTerminal_cons _ _ (by simp)] at h2
      exact h2

theorem step1_endsTerminal (s : List Char) (h : s ≠ []) :
    (if !s.isEmpty && !endsTerminal s then s ++ ['.'] else s) ≠ [] ∧
      endsTerminal
        (if !s.isEmpty && !endsTerminal s then s ++ ['.'] else s) = true := by
  by_cases ht : endsTerminal s = true
  · rw [if_neg (by simp [ht])]
    exact ⟨h, ht⟩
  · have ht' : endsTerminal s = false := by simpa using ht
    rw [if_pos (by simp [ht', h])]
    exact ⟨by simp, by rw [endsTerminal_concat]; decide⟩

theorem post_nonempty_endsTerminal (s : List Char) (h : s ≠ []) :
    post_process_text s ≠ [] ∧
      endsTerminal (post_process_text s) = true := by
  unfold post_process_text
  have h1 := step1_endsTerminal s h
  have h2 := step2Aux_endsTerminal _ [] h1.1 h1.2
  have h3 := step3Aux_endsTerminal _ none h2.1 h2.2
  exact capFirst_endsTerminal _ h3.1 h3.2

/-! ### Fixed points of the first regex pass -/

theorem ok2_cons_cons (a b : Char) (l : List Char) :
    ok2 (a :: b :: l) = (!(isWsC a && isPunctC b) && ok2 (b :: l)) := rfl

theorem ok2_tail {a : Char} {l : List Char} (h : ok2 (a :: l) = true) :
    ok2 l = true := by
  rcases l with _ | ⟨b, t⟩
  · rfl
  · rw [ok2_cons_cons, Bool.and_eq_true] at h
    exact h.2

theorem ok2_cons_of_not_ws {a : Char} {l : List Char} (ha : isWsC a = false)
    (hl : ok2 l = true) : ok2 (a :: l) = true := by
  rcases l with _ | ⟨b, t⟩
  · rfl
  · rw [ok2_cons_cons, ha]
    simpa using hl

theorem ok2_cons_pair {a b : Char} {l : List Char}
    (hp : (!(isWsC a && isPunctC b)) = true) (h : ok2 (b :: l) = true) :
    ok2 (a :: b :: l) = true := by
  rw [ok2_cons_cons, hp]
  simpa using h

theorem ok2_append_right :
    ∀ (xs ys : List Char), ok2 (xs ++ ys) = true → ok2 ys = true := by
  intro xs
  induction xs with
  | nil => intro ys h; exact h
  | cons a xs ih => intro ys h; exact ih ys (ok2_tail h)

theorem ok2_append_left :
    ∀ (xs ys : List Char), ok2 (xs ++ ys) = true → ok2 xs = true := by
  intro xs
  induction xs with
  | nil => intro ys _; rfl
  | cons a xs ih =>
    intro ys h
    rcases xs with _ | ⟨b, t⟩
    · rfl
    · rw [List.cons_append, List.cons_append, ok2_cons_cons,
        Bool.and_eq_true] at h
      exact ok2_cons_pair h.1 (ih ys h.2)

theorem ok2_pair_middle (xs : List Char) (u v : Char) (ys : List Char)
    (h : ok2 (xs ++ u :: v :: ys) = true) :
    (!(isWsC u && isPunctC v)) = true := by
  have h2 := ok2_append_right xs _ h
  rw [ok2_cons_cons, Bool.and_eq_true] at h2
  exact h2.1

theorem ok2_append_intro :
    ∀ (xs ys : List Char), ok2 xs = true → ok2 ys = true →
      (∀ x y, xs.getLast? = some x → ys.head? = some y →
        (!(isWsC x && isPunctC y)) = true) →
      ok2 (xs ++ ys) = true := by
  intro xs
  induction xs with
  | nil => intro ys _ hys _; exact hys
  | cons a xs ih =>
    intro ys hxs hys hb
    rcases xs with _ | ⟨b, t⟩
    · rcases ys with _ | ⟨y, ys'⟩
      · exact hxs
      · exact ok2_cons_pair (hb a y rfl rfl) hys
    · rw [List.cons_append, List.cons_append]
      rw [ok2_cons_cons, Bool.and_eq_true] at hxs
      refine ok2_cons_pair hxs.1 ?_
      refine ih ys hxs.2 hys ?_
      intro x y hx hy
      refine hb x y ?_ hy
      rw [List.getLast?_cons_cons]
      exact hx

theorem ok2_all_ws :
    ∀ m : List Char, (∀ c ∈ m, isWsC c = true) → ok2 m = true := by
  intro m
  induction m with
  | nil => intro _; rfl
  | cons a m ih =>
    intro h
    rcases m with _ | ⟨b, t⟩
    · rfl
    · refine ok2_cons_pair ?_ (ih (fun c hc => h c (by simp [hc])))
      rw [ws_not_punct (h b (by simp))]
      simp

theorem step2Aux_ok2 :
    ∀ (l pending : List Char), (∀ c ∈ pending, isWsC c = true) →
      ok2 (step2Aux l pending) = true := by
  intro l
  induction l with
  | nil =>
    intro pending hp
    rw [step2Aux_nil]
    exact ok2_all_ws _ (fun c hc => hp c (List.mem_reverse.mp hc))
  | cons c rest ih =>
    intro pending hp
    rw [step2Aux_cons]
    by_cases hw : isWsC c = true
    · rw [if_pos hw]
      refine ih (c :: pending) ?_
      intro x hx
      rcases List.mem_cons.mp hx with rfl | hx
      · exact hw
      · exact hp x hx
    · rw [if_neg hw]
      have hw' : isWsC c = false := by simpa using hw
      by_cases hpc : isPunctC c = true
      · rw [if_pos hpc]
        exact ok2_cons_of_not_ws hw' (ih [] (by simp))
      · rw [if_neg hpc]
        have hpc' : isPunctC c = false := by simpa using hpc
        refine ok2_append_intro _ _
          (ok2_all_ws _ (fun x hx => hp x (List.mem_reverse.mp hx)))
          (ok2_cons_of_not_ws hw' (ih [] (by simp))) ?_
        intro x y _ hy
        have hyc : c = y := by simpa using hy
        rw [← hyc, hpc']
        simp

theorem step2Aux_fixed :
    ∀ (l pending : List Char), (∀ c ∈ pending, isWsC c = true) →
      ok2 (pending.reverse ++ l) = true →
      step2Aux l pending = pending.reverse ++ l := by
  intro l
  induction l with
  | nil => intro pending _ _; rw [step2Aux_nil]; simp
  | cons c rest ih =>
    intro pending hp hok
    rw [step2Aux_cons]
    by_cases hw : isWsC c = true
    · rw [if_pos hw]
      have hmem : ∀ x ∈ c :: pending, isWsC x = true := by
        intro x hx
        rcases List.mem_cons.mp hx with rfl | hx
        · exact hw
        · exact hp x hx
      have harr : (c :: pending).reverse ++ rest = pending.reverse ++ c :: rest := by
        simp
      rw [ih (c :: pending) hmem (by rw [harr]; exact hok), harr]
    · rw [if_neg hw]
      by_cases hpc : isPunctC c = true
      · rw [if_pos hpc]
        rcases pending with _ | ⟨p, ps⟩
        · simp only [List.reverse_nil, List.nil_append] at hok ⊢
          rw [ih [] (by simp) (by simpa using ok2_tail hok)]
          simp
        · exfalso
          have harr : (p :: ps).reverse ++ c :: rest =
              ps.reverse ++ p :: c :: rest := by simp
          rw [harr] at hok
          have := ok2_pair_middle _ _ _ _ hok
          rw [hp p (by simp), hpc] at this
          simp at this
      · rw [if_neg hpc]
        have hok2 : ok2 rest = true :=
          ok2_tail (ok2_append_right pending.reverse _ hok)
        rw [ih [] (by simp) (by simpa using hok2)]
        simp

theorem stOK_some (t : Char) (ws : List Char) :
    stOK (some (t, ws)) ↔
      (isTerminalC t = true ∧ ∀ c ∈ ws, isWsC c = true) := Iff.rfl

theorem step3Aux_head_some :
    ∀ (l : List Char) (t : Char) (ws : List Char),
      (step3Aux l (some (t, ws))).head? = some t := by
  intro l
  induction l with
  | nil => intro t ws; rfl
  | cons c rest ih =>
    intro t ws
    rw [step3Aux_cons_some]
    by_cases hw : isWsC c = true
    · rw [if_pos hw]
      exact ih t (c :: ws)
    · rw [if_neg hw]
      by_cases hu : isUpperC c = true
      · rw [if_pos hu]; rfl
      · rw [if_neg hu]
        by_cases hc : isTerminalC c = true
        · rw [if_pos hc]; rfl
        · rw [if_neg hc]; rfl

theorem step3Aux_head_none (l : List Char) (h : l ≠ []) :
    (step3Aux l none).head? = l.head? := by
  rcases l with _ | ⟨c, rest⟩
  · exact absurd rfl h
  · rw [step3Aux_cons_none]
    by_cases hc : isTerminalC c = true
    · rw [if_pos hc, step3Aux_head_some]; rfl
    · rw [if_neg hc]; rfl

theorem step3Aux_ok2 :
    ∀ (l : List Char) (st : Option (Char × List Char)), stOK st →
      ok2 (stRepr st ++ l) = true → ok2 (step3Aux l st) = true := by
  intro l
  induction l with
  | nil =>
    intro st hst hok
    rcases st with _ | ⟨t, ws⟩
    · rfl
    · rw [step3Aux_nil_some]
      simpa [stRepr] using hok
  | cons c rest ih =>
    intro st hst hok
    rcases st with _ | ⟨t, ws⟩
    · simp only [stRepr, List.nil_append] at hok
      rw [step3Aux_cons_none]
      by_cases hc : isTerminalC c = true
      · rw [if_pos hc]
        refine ih (some (c, [])) ((stOK_some c []).mpr ⟨hc, by simp⟩) ?_
        simpa [stRepr] using hok
      · rw [if_neg hc]
        rcases rest with _ | ⟨d, r'⟩
        · rw [step3Aux_nil_none]; rfl
        · have hne : step3Aux (d :: r') none ≠ [] := by
            intro hnil
            have hh := step3Aux_head_none (d :: r') (by simp)
            rw [hnil] at hh
            simp at hh
          rcases hO : step3Aux (d :: r') none with _ | ⟨o, O'⟩
          · exact absurd hO hne
          · have hhead := step3Aux_head_none (d :: r') (by simp)
            rw [hO] at hhead
            have hod : o = d := by simpa using hhead
            subst hod
            refine ok2_cons_pair ?_ ?_
            · rw [ok2_cons_cons, Bool.and_eq_true] at hok
              exact hok.1
            · rw [← hO]
              exact ih none trivial (by simpa [stRepr] using ok2_tail hok)
    · obtain ⟨ht, hws⟩ := (stOK_some t ws).mp hst
      simp only [stRepr] at hok
      rw [step3Aux_cons_some]
      have hokr : ok2 rest = true :=
        ok2_tail (ok2_append_right (t :: ws.reverse) _ hok)
      by_cases hw : isWsC c = true
      · rw [if_pos hw]
        refine ih (some (t, c :: ws))
          ((stOK_some t (c :: ws)).mpr ⟨ht, ?_⟩) ?_
        · intro x hx
          rcases List.mem_cons.mp hx with rfl | hx
          · exact hw
          · exact hws x hx
        · simp only [stRepr, List.reverse_cons]
          have harr : (t :: (ws.reverse ++ [c])) ++ rest =
              (t :: ws.reverse) ++ (c :: rest) := by simp
          rw [harr]
          exact hok
      · rw [if_neg hw]
        have hw' : isWsC c = false := by simpa using hw
        by_cases hu : isUpperC c = true
        · rw [if_pos hu]
          have hO : ok2 (step3Aux rest none) = true :=
            ih none trivial (by simpa [stRepr] using hokr)
          refine ok2_cons_of_not_ws (terminal_not_ws ht) ?_
          refine ok2_cons_pair ?_ ?_
          · rw [upper_not_punct hu]
            simp
          · exact ok2_cons_of_not_ws hw' hO
        · rw [if_neg hu]
          by_cases hc : isTerminalC c = true
          · rw [if_pos hc]
            rcases ws with _ | ⟨w, ws'⟩
            · have hO₂ : ok2 (step3Aux rest (some (c, []))) = true := by
                refine ih (some (c, []))
                  ((stOK_some c []).mpr ⟨hc, by simp⟩) ?_
                simp only [stRepr, List.reverse_nil]
                simp only [List.reverse_nil] at hok
                exact ok2_tail hok
              simp only [List.reverse_nil]
              exact ok2_cons_of_not_ws (terminal_not_ws ht) hO₂
            · exfalso
              have harr : (t :: (w :: ws').reverse) ++ (c :: rest) =
                  (t :: ws'.reverse) ++ (w :: c :: rest) := by simp
              rw [harr] at hok
              have hpair := ok2_pair_middle _ _ _ _ hok
              rw [hws w (by simp), terminal_punct hc] at hpair
              simp at hpair
          · rw [if_neg hc]
            have hO : ok2 (step3Aux rest none) = true :=
              ih none trivial (by simpa [stRepr] using hokr)
            by_cases hp : isPunctC c = true
            · rcases ws with _ | ⟨w, ws'⟩
              · simp only [List.reverse_nil]
                exact ok2_cons_of_not_ws (terminal_not_ws ht)
                  (ok2_cons_of_not_ws hw' hO)
              · exfalso
                have harr : (t :: (w :: ws').reverse) ++ (c :: rest) =
                    (t :: ws'.reverse) ++ (w :: c :: rest) := by simp
                rw [harr] at hok
                have hpair := ok2_pair_middle _ _ _ _ hok
                rw [hws w (by simp), hp] at hpair
                simp at hpair
            · have hp' : isPunctC c = false := by simpa using hp
              refine ok2_append_intro _ _
                (ok2_append_left _ _ hok)
                (ok2_cons_of_not_ws hw' hO) ?_
              intro x y _ hy
              have hyc : c = y := by simpa using hy
              rw [← hyc, hp']
              simp

theorem capFirst_ok2 (l : List Char) (h : ok2 l = true) :
    ok2 (capFirst l) = true := by
  rcases l with _ | ⟨a, rest⟩
  · rfl
  · rcases rest with _ | ⟨b, t⟩
    · rfl
    · rw [capFirst, ok2_cons_cons, upc_ws]
      exact h

theorem isWsC_space : isWsC ' ' = true := by decide

theorem step3Aux_ws_skip :
    ∀ (m l : List Char) (t : Char) (acc : List Char),
      (∀ c ∈ m, isWsC c = true) →
      step3Aux (m ++ l) (some (t, acc)) =
        step3Aux l (some (t, m.reverse ++ acc)) := by
  intro m
  induction m with
  | nil => intro l t acc _; simp
  | cons c m ih =>
    intro l t acc hm
    rw [List.cons_append, step3Aux_cons_some, if_pos (hm c (by simp))]
    rw [ih l t (c :: acc) (fun x hx => hm x (by simp [hx]))]
    have harr : m.reverse ++ (c :: acc) = (c :: m).reverse ++ acc := by simp
    rw [harr]

theorem step3Aux_idem_nil_B (t : Char) (ws : List Char)
    (ht : isTerminalC t = true) (hws : ∀ c ∈ ws, isWsC c = true) :
    step3Aux (step3Aux [] (some (t, ws))) none =
      step3Aux [] (some (t, ws)) := by
  rw [step3Aux_nil_some, step3Aux_cons_none, if_pos ht]
  have h1 := step3Aux_ws_skip ws.reverse [] t []
    (fun x hx => hws x (List.mem_reverse.mp hx))
  rw [List.append_nil, List.append_nil, List.reverse_reverse] at h1
  rw [h1, step3Aux_nil_some]

theorem step3Aux_idem_nil_C (t : Char) (ws : List Char) (u : Char)
    (vs : List Char) (ht : isTerminalC t = true)
    (hws : ∀ c ∈ ws, isWsC c = true) (hu : isTerminalC u = true)
    (hvs : ∀ c ∈ vs, isWsC c = true) :
    step3Aux (step3Aux [] (some (u, vs))) (some (t, ws)) =
      (t :: ws.reverse) ++ step3Aux [] (some (u, vs)) := by
  rw [step3Aux_nil_some, step3Aux_cons_some,
    if_neg (by simp [terminal_not_ws hu]),
    if_neg (by simp [terminal_not_upper hu]), if_pos hu]
  have h1 := step3Aux_ws_skip vs.reverse [] u []
    (fun x hx => hvs x (List.mem_reverse.mp hx))
  rw [List.append_nil, List.append_nil, List.reverse_reverse] at h1
  rw [h1, step3Aux_nil_some]

theorem step3Aux_idem_all :
    ∀ (n : Nat) (l : List Char), l.length ≤ n →
      (step3Aux (step3Aux l none) none = step3Aux l none) ∧
      (∀ t ws, isTerminalC t = true → (∀ c ∈ ws, isWsC c = true) →
        step3Aux (step3Aux l (some (t, ws))) none =
          step3Aux l (some (t, ws))) ∧
      (∀ t ws u vs, isTerminalC t = true → (∀ c ∈ ws, isWsC c = true) →
        isTerminalC u = true → (∀ c ∈ vs, isWsC c = true) →
        step3Aux (step3Aux l (some (u, vs))) (some (t, ws)) =
          (t :: ws.reverse) ++ step3Aux l (some (u, vs))) := by
  intro n
  induction n with
  | zero =>
    intro l hl
    have hnil : l = [] := List.eq_nil_of_length_eq_zero (Nat.le_zero.mp hl)
    subst hnil
    exact ⟨rfl, step3Aux_idem_nil_B,
      fun t ws u vs => step3Aux_idem_nil_C t ws u vs⟩
  | succ n ihn =>
    intro l hl
    rcases l with _ | ⟨c, r⟩
    · exact ⟨rfl, step3Aux_idem_nil_B,
        fun t ws u vs => step3Aux_idem_nil_C t ws u vs⟩
    · have hr : r.length ≤ n := by simpa using hl
      obtain ⟨ihA, ihB, ihC⟩ := ihn r hr
      refine ⟨?_, ?_, ?_⟩
      · rw [step3Aux_cons_none]
        by_cases hc : isTerminalC c = true
        · rw [if_pos hc]
          exact ihB c [] hc (by simp)
        · rw [if_neg hc, step3Aux_cons_none, if_neg hc, ihA]
      · intro t ws ht hws
        rw [step3Aux_cons_some]
        by_cases hw : isWsC c = true
        · rw [if_pos hw]
          refine ihB t (c :: ws) ht ?_
          intro x hx
          rcases List.mem_cons.mp hx with rfl | hx
          · exact hw
          · exact hws x hx
        · rw [if_neg hw]
          by_cases hu : isUpperC c = true
          · rw [if_pos hu]
            rw [step3Aux_cons_none, if_pos ht]
            rw [step3Aux_cons_some, if_pos isWsC_space]
            rw [step3Aux_cons_some, if_neg hw, if_pos hu]
            rw [ihA]
          · rw [if_neg hu]
            by_cases hc : isTerminalC c = true
            · rw [if_pos hc]
              rw [List.cons_append]
              rw [step3Aux_cons_none, if_pos ht]
              rw [step3Aux_ws_skip ws.reverse (step3Aux r (some (c, [])))
                t [] (fun x hx => hws x (List.mem_reverse.mp hx))]
              rw [show ws.reverse.reverse ++ ([] : List Char) = ws by simp]
              rw [ihC t ws c [] ht hws hc (by simp)]
              rw [List.cons_append]
            · rw [if_neg hc]
              rw [List.cons_append]
              rw [step3Aux_cons_none, if_pos ht]
              rw [step3Aux_ws_skip ws.reverse (c :: step3Aux r none)
                t [] (fun x hx => hws x (List.mem_reverse.mp hx))]
              rw [show ws.reverse.reverse ++ ([] : List Char) = ws by simp]
              rw [step3Aux_cons_some, if_neg hw, if_neg hu, if_neg hc]
              rw [ihA]
              rw [List.cons_append]
      · intro t ws u vs ht hws hu hvs
        rw [step3Aux_cons_some]
        by_cases hw : isWsC c = true
        · rw [if_pos hw]
          refine ihC t ws u (c :: vs) ht hws hu ?_
          intro x hx
          rcases List.mem_cons.mp hx with rfl | hx
          · exact hw
          · exact hvs x hx
        · rw [if_neg hw]
          by_cases hup : isUpperC c = true
          · rw [if_pos hup]
            rw [step3Aux_cons_some, if_neg (by simp [terminal_not_ws hu]),
              if_neg (by simp [terminal_not_upper hu]), if_pos hu]
            rw [step3Aux_cons_some, if_pos isWsC_space]
            rw [step3Aux_cons_some, if_neg hw, if_pos hup]
            rw [ihA]
          · rw [if_neg hup]
            by_cases hc : isTerminalC c = true
            · rw [if_pos hc]
              rw [List.cons_append]
              rw [step3Aux_cons_some, if_neg (by simp [terminal_not_ws hu]),
                if_neg (by simp [terminal_not_upper hu]), if_pos hu]
              rw [step3Aux_ws_skip vs.reverse (step3Aux r (some (c, [])))
                u [] (fun x hx => hvs x (List.mem_reverse.mp hx))]
              rw [show vs.reverse.reverse ++ ([] : List Char) = vs by simp]
              rw [ihC u vs c [] hu hvs hc (by simp)]
              simp
            · rw [if_neg hc]
              rw [List.cons_append]
              rw [step3Aux_cons_some, if_neg (by simp [terminal_not_ws hu]),
                if_neg (by simp [terminal_not_upper hu]), if_pos hu]
              rw [step3Aux_ws_skip vs.reverse (c :: step3Aux r none)
                u [] (fun x hx => hvs x (List.mem_reverse.mp hx))]
              rw [show vs.reverse.reverse ++ ([] : List Char) = vs by simp]
              rw [step3Aux_cons_some, if_neg hw, if_neg hup, if_neg hc]
              rw [ihA]
              simp

theorem capFirst_capFirst (l : List Char) :
    capFirst (capFirst l) = capFirst l := by
  rcases l with _ | ⟨c, r⟩
  · rfl
  · rw [capFirst, capFirst, upc_upc]

theorem step3Aux_capFirst_commute (z : List Char) :
    step3Aux (capFirst z) none = capFirst (step3Aux z none) := by
  rcases z with _ | ⟨c, r⟩
  · rfl
  · rw [capFirst]
    by_cases hc : isTerminalC c = true
    · have hup : upc c = c := by
        apply upc_eq_self_of_not_lower
        simp [isTerminalC] at hc
        omega
      rw [hup, step3Aux_cons_none, if_pos hc]
      rcases hO : step3Aux r (some (c, [])) with _ | ⟨o, O⟩
      · have hh := step3Aux_head_some r c []
        rw [hO] at hh
        simp at hh
      · have hh := step3Aux_head_some r c []
        rw [hO] at hh
        have hoc : o = c := by simpa using hh
        subst hoc
        rw [capFirst, hup]
    · have hterm : isTerminalC (upc c) = false := by
        rw [upc_terminal]
        simpa using hc
      rw [step3Aux_cons_none, if_neg (by simp [hterm]),
        step3Aux_cons_none, if_neg hc, capFirst]

theorem post_process_of_endsTerminal (l : List Char)
    (h : endsTerminal l = true) :
    post_process_text l = capFirst (step3Aux (step2Aux l []) none) := by
  simp only [post_process_text]
  rw [if_neg (by simp [h])]

/-- C8: `_post_process_text` is idempotent — applying it to its own output
returns that output unchanged.  The output always ends in a sentence-terminal
character (so the trailing-period step is a no-op on re-application), has no
whitespace left before `[.!?,:;]` (first regex is a no-op), has every
sentence-terminal/uppercase junction already separated by exactly one space
(second regex is a no-op), and its first character is a fixed point of
upper-casing. -/
theorem claim8_idempotent (s : List Char) :
    post_process_text (post_process_text s) = post_process_text s := by
  rcases eq_or_ne s [] with rfl | hs
  · rfl
  · have hy := post_nonempty_endsTerminal s hs
    have hok_y : ok2 (post_process_text s) = true := by
      simp only [post_process_text]
      apply capFirst_ok2
      apply step3Aux_ok2 _ none trivial
      simpa [stRepr] using step2Aux_ok2
        (if !s.isEmpty && !endsTerminal s then s ++ ['.'] else s) [] (by simp)
    have hys : post_process_text s =
        capFirst (step3Aux (step2Aux
          (if !s.isEmpty && !endsTerminal s then s ++ ['.'] else s) []) none) :=
      rfl
    rw [hys]
    rw [hys] at hy hok_y
    have h2 : step2Aux (capFirst (step3Aux (step2Aux
        (if !s.isEmpty && !endsTerminal s then s ++ ['.'] else s) []) none)) [] =
        capFirst (step3Aux (step2Aux
          (if !s.isEmpty && !endsTerminal s then s ++ ['.'] else s) []) none) := by
      have hfix := step2Aux_fixed (capFirst (step3Aux (step2Aux
        (if !s.isEmpty && !endsTerminal s then s ++ ['.'] else s) []) none)) []
        (by simp) (by simpa using hok_y)
      simpa using hfix
    have h3 : step3Aux (capFirst (step3Aux (step2Aux
        (if !s.isEmpty && !endsTerminal s then s ++ ['.'] else s) []) none)) none =
        capFirst (step3Aux (step2Aux
          (if !s.isEmpty && !endsTerminal s then s ++ ['.'] else s) []) none) := by
      rw [step3Aux_capFirst_commute,
        (step3Aux_idem_all (step2Aux
          (if !s.isEmpty && !endsTerminal s then s ++ ['.'] else s) []).length
          _ le_rfl).1]
    rw [post_process_of_endsTerminal _ hy.2, h2, h3, capFirst_capFirst]

/-! ### Generated output is non-empty and sentence-final (C10) -/

theorem getD_mod_mem (l : List Token) (r : Nat) (h : l ≠ []) :
    l.getD (r % l.length) [] ∈ l := by
  have hlen : 0 < l.length := List.length_pos.mpr h
  have hidx : r % l.length < l.length := Nat.mod_lt _ hlen
  rw [List.getD_eq_getElem l [] hidx]
  exact List.getElem_mem hidx

theorem joinSp_ne_nil (a : Token) (rest : List Token) (ha : a ≠ []) :
    joinSp (a :: rest) ≠ [] := by
  rcases rest with _ | ⟨b, ts⟩
  · simpa [joinSp] using ha
  · simp [joinSp]

theorem choose_starting_word_ne_nil (st : BookSynopsisGenerator) (r : Nat)
    (hb : st.bigrams ≠ []) (hwf : wfTokens st = true) :
    choose_starting_word st r ≠ [] := by
  unfold wfTokens at hwf
  rw [Bool.and_eq_true] at hwf
  obtain ⟨h1, h2⟩ := hwf
  rw [List.all_eq_true] at h1 h2
  simp only [choose_starting_word]
  by_cases hst : st.sentence_starters.isEmpty = true
  · rw [if_neg (by simp [hst])]
    rw [if_pos (by simp [List.isEmpty_iff, hb])]
    by_cases hcaps :
        ((st.bigrams.map Prod.fst).filter firstIsUpper).isEmpty = true
    · rw [if_neg (by simp [hcaps])]
      have hks : st.bigrams.map Prod.fst ≠ [] := by simpa using hb
      have hmem := getD_mod_mem (st.bigrams.map Prod.fst) r hks
      have hne := h2 _ hmem
      intro hnil
      rw [hnil] at hne
      simp at hne
    · have hcne : (st.bigrams.map Prod.fst).filter firstIsUpper ≠ [] := by
        simpa [List.isEmpty_iff] using hcaps
      rw [if_pos (by simp [List.isEmpty_iff, hcne])]
      have hmem := getD_mod_mem _ r hcne
      have hmem' := List.mem_of_mem_filter hmem
      have hne := h2 _ hmem'
      intro hnil
      rw [hnil] at hne
      simp at hne
  · have hsne : st.sentence_starters ≠ [] := by
      simpa [List.isEmpty_iff] using hst
    rw [if_pos (by simp [List.isEmpty_iff, hsne])]
    have hmem := getD_mod_mem _ r hsne
    have hne := h1 _ hmem
    intro hnil
    rw [hnil] at hne
    simp at hne

/-- C10: for every well-formed model (all starter tokens and all keys
non-empty, as holds for every trained model) and any lengths and oracles,
`generate_synopsis` returns a non-empty string ending in `.`, `!` or `?` —
including the empty-model fallback string. -/
theorem claim10_terminal_output (st : BookSynopsisGenerator)
    (maxL minL r0 : Nat) (rho : Nat → Nat) (hwf : wfTokens st = true) :
    generate_synopsis st maxL minL r0 rho ≠ [] ∧
      endsTerminal (generate_synopsis st maxL minL r0 rho) = true := by
  unfold generate_synopsis
  by_cases hb : st.bigrams.isEmpty = true
  · rw [if_pos hb]
    exact ⟨by decide, by decide⟩
  · rw [if_neg hb]
    have hbne : st.bigrams ≠ [] := by simpa [List.isEmpty_iff] using hb
    have hcur : choose_starting_word st r0 ≠ [] :=
      choose_starting_word_ne_nil st r0 hbne hwf
    have hjoin : joinSp (synopsisTokens st maxL minL r0 rho) ≠ [] := by
      unfold synopsisTokens
      exact joinSp_ne_nil _ _ hcur
    exact post_nonempty_endsTerminal _ hjoin

theorem claim10_witness :
    wfTokens (load_training_data initGen textCatDog) = true ∧
      (generate_synopsis (load_training_data initGen textCatDog) 10 2 0
          (fun _ => 0) ≠ [] ∧
        endsTerminal (generate_synopsis (load_training_data initGen textCatDog)
          10 2 0 (fun _ => 0)) = true) :=
  ⟨by decide, claim10_terminal_output _ 10 2 0 _ (by decide)⟩

/-- C9: training a fresh generator on `"The cat sat. The dog ran."` yields
`"The" → ["cat", "dog"]` in order of appearance, and a starter pool holding
`"The"` exactly twice. -/
theorem claim9_scenario :
    lookupList (load_training_data initGen textCatDog).bigrams
        ((r"The").toList) = [(r"cat").toList, (r"dog").toList] ∧
      (load_training_data initGen textCatDog).sentence_starters.count
        ((r"The").toList) = 2 := by
  decide
